import Mathlib

/-!
Verification of the subwin real-time captioning pipeline.

This file gives a shallow embedding, in Lean 4, of the pure computational
core of the subwin repository, and proves properties of it:

* `crates/subwin-speech/src/stabilizer.rs` — the caption stabilizer
  (`CaptionsStabilizer::push`);
* `crates/subwin-speech/src/whisper.rs` and `lib.rs` — the Whisper decoder
  adapter (`accept_samples`, `try_transcribe`, `calculate_samples_rms`);
* `crates/subwin-audio/src/lib.rs` and `device.rs` — buffer sizing
  (`gcd`, `find_nearest_to`, `target_buffer_size`);
* `src/audio/mixer.rs` — the stereo-to-mono downmixer;
* `src/audio/resampler.rs` — the fixed-block resampler front end.

Modelling conventions:
* Rust `String` is modelled as `List Char` (`Text` below), with structural
  re-definitions of the exact string operations the source uses
  (`starts_with(char)`, `ends_with(char)`, `trim`, `is_empty`), so that all
  predicates are decidable and kernel-computable.
* Audio samples (`f32`/`f64`) are modelled as `ℚ`; exact arithmetic stands
  in for floating point.
* Rust `i64` is modelled as `ℤ`, `usize`/`u32` as `ℕ`.  Rust `sort_by_key`
  is a stable sort; it is modelled by the stable `List.insertionSort`.
* The opaque whisper inference engine and the rubato FFT engine are external
  dependencies; they are modelled as oracle parameters (functions supplied
  to the embedded operations), so that theorems quantifying over all oracles
  express independence from the engine.
-/

namespace Subwin

/-! ## Text model: Rust `String` as a list of characters -/

/-- Model of Rust `String`: a list of characters. -/
abbrev Text := List Char

/-- Model of Rust `str::starts_with(c: char)`. -/
def textStartsWith (c : Char) (t : Text) : Bool :=
  match t with
  | [] => false
  | a :: _ => a == c

/-- Model of Rust `str::ends_with(c: char)`. -/
def textEndsWith (c : Char) (t : Text) : Bool :=
  match t.getLast? with
  | none => false
  | some a => a == c

/-- Model of Rust `str::trim`: drop leading and trailing whitespace. -/
def textTrim (t : Text) : Text :=
  ((t.dropWhile Char.isWhitespace).reverse.dropWhile Char.isWhitespace).reverse

/-! ## Caption stabilizer (crates/subwin-speech/src/stabilizer.rs) -/

/-- Model of `CaptionSegment` from `crates/subwin-speech/src/lib.rs`:
timestamps are `i64` milliseconds, text is the segment's transcript. -/
structure CaptionSegment where
  start_milliseconds : ℤ
  end_milliseconds : ℤ
  text : Text
deriving DecidableEq, Repr

/-- Model of `CaptionUpdate`: the finalized (`history`) and still-mutable
(`active`) segments returned by one `push`. -/
structure CaptionUpdate where
  history : List CaptionSegment
  active : List CaptionSegment
deriving DecidableEq, Repr

/-- Model of `CaptionUpdate::default()`: both lists empty. -/
def CaptionUpdate.default : CaptionUpdate := ⟨[], []⟩

/-- Model of `CaptionsStabilizer`'s fields. -/
structure CaptionsStabilizer where
  tail_ms : ℤ
  dedupe_fuzz_ms : ℤ
  last_final_end_ms : ℤ
deriving DecidableEq, Repr

/-- Model of `CaptionsStabilizer::new(tail_ms)`: `dedupe_fuzz_ms = 80`,
`last_final_end_ms = 0`. -/
def CaptionsStabilizer.new (tail_ms : ℤ) : CaptionsStabilizer :=
  { tail_ms := tail_ms, dedupe_fuzz_ms := 80, last_final_end_ms := 0 }

/-- Sort key order used by `segments.sort_by_key(|s| (s.start_milliseconds,
s.end_milliseconds))`: lexicographic on `(start_ms, end_ms)`. -/
def segmentKeyLe (a b : CaptionSegment) : Prop :=
  a.start_milliseconds < b.start_milliseconds ∨
    (a.start_milliseconds = b.start_milliseconds ∧
      a.end_milliseconds ≤ b.end_milliseconds)

instance : DecidableRel segmentKeyLe := fun a b => by
  unfold segmentKeyLe; infer_instance

/-- Loop body of `CaptionsStabilizer::push`: the accumulator carries the
update built so far together with the running `last_final_end_ms`. -/
def pushStep (cutoff_ms dedupe_fuzz_ms : ℤ) (acc : CaptionUpdate × ℤ)
    (segment : CaptionSegment) : CaptionUpdate × ℤ :=
  -- Drop non-speech junk like bracket-tagged markers (untrimmed text)
  if textStartsWith '[' segment.text && textEndsWith ']' segment.text then
    acc
  else if segment.end_milliseconds ≤ cutoff_ms then
    -- Candidate for finalization
    if segment.end_milliseconds ≤ acc.2 + dedupe_fuzz_ms then
      acc -- overlap / duplicate
    else
      ({ acc.1 with history := acc.1.history ++ [segment] },
        max acc.2 segment.end_milliseconds)
  else
    -- Still live
    ({ acc.1 with active := acc.1.active ++ [segment] }, acc.2)

/-- Model of `CaptionsStabilizer::push(now_milliseconds, segments)`.  Returns
the `CaptionUpdate` together with the mutated stabilizer state. -/
def CaptionsStabilizer.push (st : CaptionsStabilizer) (now_milliseconds : ℤ)
    (segments : List CaptionSegment) : CaptionUpdate × CaptionsStabilizer :=
  let cutoff_ms := now_milliseconds - st.tail_ms
  let sorted := List.insertionSort segmentKeyLe segments
  let result := sorted.foldl (pushStep cutoff_ms st.dedupe_fuzz_ms)
    (CaptionUpdate.default, st.last_final_end_ms)
  (result.1, { st with last_final_end_ms := result.2 })

/-- Runs a sequence of `push` calls on one stabilizer, returning the
concatenation of the returned `history` lists in return order, together with
the final stabilizer state. -/
def runPushes (st : CaptionsStabilizer) :
    List (ℤ × List CaptionSegment) → List CaptionSegment × CaptionsStabilizer
  | [] => ([], st)
  | (now, segs) :: rest =>
    let r := st.push now segs
    let tail := runPushes r.2 rest
    (r.1.history ++ tail.1, tail.2)

/-- The join property claimed for consecutive segments of the finalized
stream: the later one starts no earlier, and the earlier one overlaps it by
at most `fuzz` milliseconds. -/
def historyJoinOk (fuzz : ℤ) (p q : CaptionSegment) : Prop :=
  p.start_milliseconds ≤ q.start_milliseconds ∧
    p.end_milliseconds - q.start_milliseconds ≤ fuzz

instance (fuzz : ℤ) : DecidableRel (historyJoinOk fuzz) := fun p q => by
  unfold historyJoinOk; infer_instance

end Subwin

namespace Subwin

/-! ## Stabilizer lemmas -/

/-- End-separation property of the finalized stream: a later finalized
segment ends more than `fuzz` milliseconds after an earlier one. -/
def endGap (fuzz : ℤ) (p q : CaptionSegment) : Prop :=
  p.end_milliseconds + fuzz < q.end_milliseconds

lemma pushStep_snd_mono (c f : ℤ) (acc : CaptionUpdate × ℤ)
    (s : CaptionSegment) : acc.2 ≤ (pushStep c f acc s).2 := by
  unfold pushStep
  split_ifs <;> simp [le_max_left]

lemma foldl_pushStep_snd_mono (c f : ℤ) (l : List CaptionSegment) :
    ∀ acc : CaptionUpdate × ℤ, acc.2 ≤ (l.foldl (pushStep c f) acc).2 := by
  induction l with
  | nil => intro acc; simp
  | cons s rest ih =>
    intro acc
    exact le_trans (pushStep_snd_mono c f acc s) (ih (pushStep c f acc s))

lemma foldl_pushStep_props (c f : ℤ) (l : List CaptionSegment) :
    ∀ acc : CaptionUpdate × ℤ,
      (∀ s ∈ acc.1.history, s.end_milliseconds ≤ acc.2) →
      List.Pairwise (endGap f) acc.1.history →
      (∀ s ∈ (l.foldl (pushStep c f) acc).1.history,
          s.end_milliseconds ≤ (l.foldl (pushStep c f) acc).2) ∧
      List.Pairwise (endGap f) (l.foldl (pushStep c f) acc).1.history ∧
      (∀ s ∈ (l.foldl (pushStep c f) acc).1.history,
          s ∈ acc.1.history ∨ acc.2 + f < s.end_milliseconds) := by
  induction l with
  | nil =>
    intro acc hord hpw
    exact ⟨hord, hpw, fun s hs => Or.inl hs⟩
  | cons seg rest ih =>
    intro acc hord hpw
    have hmono : acc.2 ≤ (pushStep c f acc seg).2 := pushStep_snd_mono c f acc seg
    have hstep :
        (∀ s ∈ (pushStep c f acc seg).1.history,
            s.end_milliseconds ≤ (pushStep c f acc seg).2) ∧
        List.Pairwise (endGap f) (pushStep c f acc seg).1.history ∧
        (∀ s ∈ (pushStep c f acc seg).1.history,
            s ∈ acc.1.history ∨ acc.2 + f < s.end_milliseconds) := by
      unfold pushStep
      split_ifs with hbr hcut hdup
      · exact ⟨hord, hpw, fun s hs => Or.inl hs⟩
      · exact ⟨hord, hpw, fun s hs => Or.inl hs⟩
      · refine ⟨?_, ?_, ?_⟩
        · intro s hs
          simp only [List.mem_append, List.mem_singleton] at hs
          rcases hs with hs | rfl
          · exact le_trans (hord s hs) (le_max_left _ _)
          · exact le_max_right _ _
        · rw [List.pairwise_append]
          refine ⟨hpw, List.pairwise_singleton _ _, ?_⟩
          intro p hp q hq
          simp only [List.mem_singleton] at hq
          subst hq
          have hple : p.end_milliseconds ≤ acc.2 := hord p hp
          unfold endGap
          omega
        · intro s hs
          simp only [List.mem_append, List.mem_singleton] at hs
          rcases hs with hs | rfl
          · exact Or.inl hs
          · exact Or.inr (by omega)
      · exact ⟨hord, hpw, fun s hs => Or.inl hs⟩
    have hrec := ih (pushStep c f acc seg) hstep.1 hstep.2.1
    refine ⟨hrec.1, hrec.2.1, ?_⟩
    intro s hs
    rcases hrec.2.2 s hs with hmem | hgt
    · rcases hstep.2.2 s hmem with hmem2 | hgt2
      · exact Or.inl hmem2
      · exact Or.inr hgt2
    · exact Or.inr (by omega)

lemma push_props (st : CaptionsStabilizer) (now : ℤ)
    (segs : List CaptionSegment) :
    st.last_final_end_ms ≤ (st.push now segs).2.last_final_end_ms ∧
    (st.push now segs).2.tail_ms = st.tail_ms ∧
    (st.push now segs).2.dedupe_fuzz_ms = st.dedupe_fuzz_ms ∧
    (∀ s ∈ (st.push now segs).1.history,
        s.end_milliseconds ≤ (st.push now segs).2.last_final_end_ms) ∧
    List.Pairwise (endGap st.dedupe_fuzz_ms) (st.push now segs).1.history ∧
    (∀ s ∈ (st.push now segs).1.history,
        st.last_final_end_ms + st.dedupe_fuzz_ms < s.end_milliseconds) := by
  have hfold := foldl_pushStep_props (now - st.tail_ms) st.dedupe_fuzz_ms
    (List.insertionSort segmentKeyLe segs)
    (CaptionUpdate.default, st.last_final_end_ms)
    (by intro s hs; simp [CaptionUpdate.default] at hs)
    (by simp [CaptionUpdate.default])
  have hmono := foldl_pushStep_snd_mono (now - st.tail_ms) st.dedupe_fuzz_ms
    (List.insertionSort segmentKeyLe segs)
    (CaptionUpdate.default, st.last_final_end_ms)
  unfold CaptionsStabilizer.push
  refine ⟨hmono, rfl, rfl, hfold.1, hfold.2.1, ?_⟩
  intro s hs
  rcases hfold.2.2 s hs with hmem | hgt
  · simp [CaptionUpdate.default] at hmem
  · exact hgt

lemma runPushes_props (pushes : List (ℤ × List CaptionSegment)) :
    ∀ st : CaptionsStabilizer,
      st.last_final_end_ms ≤ (runPushes st pushes).2.last_final_end_ms ∧
      (runPushes st pushes).2.dedupe_fuzz_ms = st.dedupe_fuzz_ms ∧
      (∀ s ∈ (runPushes st pushes).1,
          st.last_final_end_ms + st.dedupe_fuzz_ms < s.end_milliseconds ∧
          s.end_milliseconds ≤ (runPushes st pushes).2.last_final_end_ms) ∧
      List.Pairwise (endGap st.dedupe_fuzz_ms) (runPushes st pushes).1 := by
  induction pushes with
  | nil =>
    intro st
    refine ⟨le_refl _, rfl, ?_, ?_⟩ <;> simp [runPushes]
  | cons p rest ih =>
    intro st
    obtain ⟨now, segs⟩ := p
    have hp := push_props st now segs
    have hr := ih (st.push now segs).2
    have hfz : (st.push now segs).2.dedupe_fuzz_ms = st.dedupe_fuzz_ms :=
      hp.2.2.1
    simp only [runPushes]
    refine ⟨le_trans hp.1 hr.1, by rw [hr.2.1, hfz], ?_, ?_⟩
    · intro s hs
      simp only [List.mem_append] at hs
      rcases hs with hs | hs
      · exact ⟨hp.2.2.2.2.2 s hs, le_trans (hp.2.2.2.1 s hs) hr.1⟩
      · have := hr.2.2.1 s hs
        rw [hfz] at this
        exact ⟨by have h1 := hp.1; omega, this.2⟩
    · rw [List.pairwise_append]
      refine ⟨hp.2.2.2.2.1, by rw [← hfz]; exact hr.2.2.2, ?_⟩
      intro a ha b hb
      have hae : a.end_milliseconds ≤ (st.push now segs).2.last_final_end_ms :=
        hp.2.2.2.1 a ha
      have hbe := (hr.2.2.1 b hb).1
      rw [hfz] at hbe
      unfold endGap
      omega

end Subwin

namespace Subwin

lemma foldl_pushStep_bracket (c f : ℤ) (l : List CaptionSegment) :
    ∀ acc : CaptionUpdate × ℤ,
      (∀ s ∈ acc.1.history ++ acc.1.active,
          ¬(textStartsWith '[' s.text = true ∧ textEndsWith ']' s.text = true)) →
      ∀ s ∈ (l.foldl (pushStep c f) acc).1.history ++
          (l.foldl (pushStep c f) acc).1.active,
        ¬(textStartsWith '[' s.text = true ∧ textEndsWith ']' s.text = true) := by
  induction l with
  | nil => intro acc h; exact h
  | cons seg rest ih =>
    intro acc h
    refine ih (pushStep c f acc seg) ?_
    unfold pushStep
    split_ifs with hbr hcut hdup
    · exact h
    · exact h
    · intro s hs
      simp only [List.mem_append, List.mem_singleton] at hs
      rcases hs with (hs | rfl) | hs
      · exact h s (List.mem_append.mpr (Or.inl hs))
      · simp only [Bool.and_eq_true] at hbr
        intro hcontra
        exact hbr ⟨hcontra.1, hcontra.2⟩
      · exact h s (List.mem_append.mpr (Or.inr hs))
    · intro s hs
      simp only [List.mem_append, List.mem_singleton] at hs
      rcases hs with hs | (hs | rfl)
      · exact h s (List.mem_append.mpr (Or.inl hs))
      · exact h s (List.mem_append.mpr (Or.inr hs))
      · simp only [Bool.and_eq_true] at hbr
        intro hcontra
        exact hbr ⟨hcontra.1, hcontra.2⟩

/-- C1 counterexample: the S5 scenario as stated by the claim is false on the
code: with `tail_ms = 1500` the cutoff at `now = 2000` is `500`, so segment
`{500, 1000, "b"}` (whose end exceeds the cutoff) stays active; history is
`[{0, 500, "a"}]`, not `[{0, 500, "a"}, {500, 1000, "b"}]`. -/
theorem push_s5_claim_false :
    ¬ (((CaptionsStabilizer.new 1500).push 2000
        [⟨0, 500, ['a']⟩, ⟨500, 1000, ['b']⟩, ⟨1800, 2000, ['c']⟩]).1.history =
          [⟨0, 500, ['a']⟩, ⟨500, 1000, ['b']⟩] ∧
       ((CaptionsStabilizer.new 1500).push 2000
        [⟨0, 500, ['a']⟩, ⟨500, 1000, ['b']⟩, ⟨1800, 2000, ['c']⟩]).1.active =
          [⟨1800, 2000, ['c']⟩]) := by decide

/-- C1 amended: with `tail_ms = 1500`, a single push at `now_ms = 2000` of
`[{0,500,"a"}, {500,1000,"b"}, {1800,2000,"c"}]` from the initial state
returns history exactly `[{0,500,"a"}]` and active exactly
`[{500,1000,"b"}, {1800,2000,"c"}]`. -/
theorem push_s5_actual :
    ((CaptionsStabilizer.new 1500).push 2000
      [⟨0, 500, ['a']⟩, ⟨500, 1000, ['b']⟩, ⟨1800, 2000, ['c']⟩]).1 =
      ⟨[⟨0, 500, ['a']⟩], [⟨500, 1000, ['b']⟩, ⟨1800, 2000, ['c']⟩]⟩ := by
  decide

/-- C2 counterexample: the concatenated history stream is not always ordered
by `start_ms` with at most 80 ms overlap at joins: pushing `{100,1000,"a"}`
and then `{10,2000,"b"}` (both past their cutoffs, second end beyond the
dedupe fuzz) finalizes both, yet the second starts 90 ms before the first and
overlaps it by 990 ms. -/
theorem history_join_claim_false :
    (runPushes (CaptionsStabilizer.new 0)
      [(2000, [⟨100, 1000, ['a']⟩]), (3000, [⟨10, 2000, ['b']⟩])]).1 =
      [⟨100, 1000, ['a']⟩, ⟨10, 2000, ['b']⟩] ∧
    ¬ historyJoinOk 80 ⟨100, 1000, ['a']⟩ ⟨10, 2000, ['b']⟩ := by decide

/-- C2 amended: across every sequence of `push` calls on one stabilizer built
with `CaptionsStabilizer.new`, the concatenation of the returned history
lists has strictly increasing `end_ms`; each later finalized segment ends
more than `dedupe_fuzz_ms` (80 ms) after every earlier one. -/
theorem history_endGap_pairwise (tail : ℤ)
    (pushes : List (ℤ × List CaptionSegment)) :
    List.Pairwise (endGap 80)
      (runPushes (CaptionsStabilizer.new tail) pushes).1 :=
  (runPushes_props pushes (CaptionsStabilizer.new tail)).2.2.2

/-- C3: `last_final_end_ms` is monotonically non-decreasing: for every
stabilizer state and every `push` call (arbitrary `now_ms`, arbitrary
segments), the field after the call is at least its value before.  Applied
along any sequence of calls this gives non-decrease across the sequence. -/
theorem last_final_end_monotone (st : CaptionsStabilizer) (now : ℤ)
    (segs : List CaptionSegment) :
    st.last_final_end_ms ≤ (st.push now segs).2.last_final_end_ms :=
  (push_props st now segs).1

/-- C5 counterexample: the claim is false for a segment whose *trimmed* text
is bracketed but whose raw text starts with whitespace: the code checks the
untrimmed text, so `" [x]"` is kept and appears in `active`. -/
theorem bracket_trimmed_claim_false :
    textStartsWith '[' (textTrim [' ', '[', 'x', ']']) = true ∧
    textEndsWith ']' (textTrim [' ', '[', 'x', ']']) = true ∧
    ((CaptionsStabilizer.new 1500).push 2000
      [⟨1800, 1900, [' ', '[', 'x', ']']⟩]).1.active =
      [⟨1800, 1900, [' ', '[', 'x', ']']⟩] := by decide

/-- C5 amended: every segment whose *untrimmed* text begins with `[` and
ends with `]` is dropped by `push`: no such segment appears in the returned
history or active lists (in particular `"[BLANK_AUDIO]"` never does). -/
theorem push_drops_bracketed (st : CaptionsStabilizer) (now : ℤ)
    (segs : List CaptionSegment) (s : CaptionSegment)
    (hs : s ∈ (st.push now segs).1.history ∨ s ∈ (st.push now segs).1.active) :
    ¬(textStartsWith '[' s.text = true ∧ textEndsWith ']' s.text = true) := by
  have h := foldl_pushStep_bracket (now - st.tail_ms) st.dedupe_fuzz_ms
    (List.insertionSort segmentKeyLe segs)
    (CaptionUpdate.default, st.last_final_end_ms)
    (by intro x hx; simp [CaptionUpdate.default] at hx)
  unfold CaptionsStabilizer.push at hs
  exact h s (List.mem_append.mpr hs)

/-- C5 witness: a `"[BLANK_AUDIO]"` segment pushed together with an ordinary
segment: the ordinary segment is the only element of `active`, and the
theorem applies to it. -/
theorem push_drops_bracketed_witness :
    ¬(textStartsWith '[' ['h', 'i'] = true ∧
      textEndsWith ']' ['h', 'i'] = true) :=
  push_drops_bracketed (CaptionsStabilizer.new 1500) 2000
    [⟨0, 100, ['[', 'B', 'L', 'A', 'N', 'K', '_', 'A', 'U', 'D', 'I', 'O', ']']⟩,
     ⟨1800, 1900, ['h', 'i']⟩]
    ⟨1800, 1900, ['h', 'i']⟩ (by decide)

end Subwin

namespace Subwin

/-! ## Buffer sizing (crates/subwin-audio/src/lib.rs, device.rs) -/

/-- Model of `FIXED_FRAME_COUNT`: the fallback buffer size in frames used
when the backend reports an unknown supported buffer size. -/
def FIXED_FRAME_COUNT : ℕ := 4096

/-- Model of `gcd` from `crates/subwin-audio/src/lib.rs`: the Euclidean
`while b != 0 { temp = a % b; a = b; b = temp }` loop. -/
def gcd (a b : ℕ) : ℕ :=
  if b = 0 then a else gcd b (a % b)
termination_by b
decreasing_by exact Nat.mod_lt _ (Nat.pos_of_ne_zero (by assumption))

/-- Model of `find_nearest_to(base, denominator)`: rounds `base` to a
multiple of `denominator`; the branch condition is `remainder * 2 <=
denominator`, so an exact tie takes the lower multiple. -/
def find_nearest_to (base denominator : ℕ) : ℕ :=
  let remainder := base % denominator
  if remainder * 2 ≤ denominator then base - remainder
  else base - remainder + denominator

/-- Model of `cpal::SupportedBufferSize` as seen by `target_buffer_size`. -/
inductive SupportedBufferSize where
  | range (min max : ℕ)
  | unknown
deriving DecidableEq, Repr

/-- Model of `HostInputDevice::target_buffer_size`: the device buffer size is
the reported maximum (or the `FIXED_FRAME_COUNT` fallback when unknown),
rounded to a multiple of `original_sample_rate / gcd(original_sample_rate,
target_rate)`. -/
def target_buffer_size (buffer_size : SupportedBufferSize)
    (original_sample_rate target_rate : ℕ) : ℕ :=
  let device_buffer_size :=
    match buffer_size with
    | .range _ max => max
    | .unknown => FIXED_FRAME_COUNT
  let rate_denominator := gcd original_sample_rate target_rate
  find_nearest_to device_buffer_size (original_sample_rate / rate_denominator)

lemma gcd_64000_16000 : gcd 64000 16000 = 16000 := by
  rw [gcd, if_neg (by norm_num)]
  norm_num
  rw [gcd, if_pos rfl]

/-- C4: the tie-break of `find_nearest_to` is a code bug: the code's own doc
comment says a tie "rounds away from zero (i.e., upward when `remainder * 2
== denominator`)", and the spec says ties break away from zero, but the
branch condition `remainder * 2 <= denominator` sends exact ties to the
lower multiple.  At device max `M = 6` and rate `R = 64000` (target 16000,
so the denominator is `64000 / gcd(64000, 16000) = 4`), `6` is exactly
halfway between `4` and `8`; the code picks `4`, not `8`. -/
theorem find_nearest_to_tie_rounds_down :
    target_buffer_size (SupportedBufferSize.range 0 6) 64000 16000 = 4 ∧
    (6 : ℕ) % 4 * 2 = 4 ∧
    find_nearest_to 6 4 = 4 ∧ (4 : ℕ) ≠ 8 := by
  refine ⟨?_, by norm_num, by decide, by norm_num⟩
  unfold target_buffer_size
  rw [gcd_64000_16000]
  decide

/-! ## Downmixer (src/audio/mixer.rs) -/

/-- Model of `mix_stereo_to_mono(samples_accumulator, samples_frame_data)`:
averages each interleaved stereo frame into the accumulator slot `i` as
`(left + right) * 0.5`, for `frames = len / 2` frames, and returns the
updated accumulator together with the frame count. -/
def mix_stereo_to_mono (samples_accumulator samples_frame_data : List ℚ) :
    List ℚ × ℕ :=
  let frames := samples_frame_data.length / 2
  let acc := (List.range frames).foldl
    (fun acc i =>
      let left_channel_sample := samples_frame_data.getD (i * 2) 0
      let right_channel_sample := samples_frame_data.getD (i * 2 + 1) 0
      acc.set i ((left_channel_sample + right_channel_sample) * (1 / 2)))
    samples_accumulator
  (acc, frames)

lemma foldl_set_length (f : ℕ → ℚ) (l : List ℕ) :
    ∀ acc : List ℚ,
      (l.foldl (fun a j => a.set j (f j)) acc).length = acc.length := by
  induction l with
  | nil => intro acc; rfl
  | cons j rest ih =>
    intro acc
    rw [List.foldl_cons, ih, List.length_set]

lemma foldl_range_set_getD (f : ℕ → ℚ) :
    ∀ (n : ℕ) (acc : List ℚ), n ≤ acc.length → ∀ i, i < n →
      ((List.range n).foldl (fun a j => a.set j (f j)) acc).getD i 0 = f i := by
  intro n
  induction n with
  | zero => intro acc _ i hi; omega
  | succ m ih =>
    intro acc hlen i hi
    rw [List.range_succ, List.foldl_append, List.foldl_cons, List.foldl_nil]
    have hlenA : ((List.range m).foldl (fun a j => a.set j (f j)) acc).length =
        acc.length := foldl_set_length f (List.range m) acc
    by_cases him : i = m
    · subst him
      rw [List.getD_eq_getElem?_getD,
        List.getElem?_set_eq_of_lt _ (by omega), Option.getD_some]
    · have him2 : i < m := by omega
      rw [List.getD_eq_getElem?_getD, List.getElem?_set_ne (by omega),
        ← List.getD_eq_getElem?_getD]
      exact ih acc (by omega) i him2

/-- C8: for every even-length stereo input `x` and accumulator of length at
least `len(x) / 2`, the downmixer returns `len(x) / 2` as the number of
frames written, and slot `i` of the result holds `(x[2i] + x[2i+1]) / 2`
for every frame `i < len(x) / 2`. -/
theorem mix_stereo_to_mono_mean (x acc : List ℚ)
    (heven : x.length % 2 = 0) (hacc : x.length / 2 ≤ acc.length) :
    (mix_stereo_to_mono acc x).2 = x.length / 2 ∧
    ∀ i, i < x.length / 2 →
      (mix_stereo_to_mono acc x).1.getD i 0 =
        (x.getD (2 * i) 0 + x.getD (2 * i + 1) 0) / 2 := by
  refine ⟨rfl, ?_⟩
  intro i hi
  have h := foldl_range_set_getD
    (fun j => (x.getD (j * 2) 0 + x.getD (j * 2 + 1) 0) * (1 / 2))
    (x.length / 2) acc hacc i hi
  unfold mix_stereo_to_mono
  simp only at h ⊢
  rw [h, mul_comm i 2]
  ring

/-- C8 witness: downmixing `[1, 3, 5, 7]` into a two-slot accumulator writes
`(1+3)/2 = 2` and `(5+7)/2 = 6` and reports two frames. -/
theorem mix_stereo_to_mono_mean_witness :
    (mix_stereo_to_mono [0, 0] [1, 3, 5, 7]).2 = 2 ∧
    (mix_stereo_to_mono [0, 0] [1, 3, 5, 7]).1.getD 0 0 = ((1 : ℚ) + 3) / 2 ∧
    (mix_stereo_to_mono [0, 0] [1, 3, 5, 7]).1.getD 1 0 = ((5 : ℚ) + 7) / 2 := by
  have h := mix_stereo_to_mono_mean [1, 3, 5, 7] [0, 0] (by decide)
    (by decide)
  refine ⟨by simpa using h.1, ?_, ?_⟩
  · have h0 := h.2 0 (by decide)
    simpa using h0
  · have h1 := h.2 1 (by decide)
    simpa using h1

end Subwin

namespace Subwin

/-! ## Fixed-block resampler (src/audio/resampler.rs) -/

/-- Model of `ResamplerError`. -/
inductive ResamplerError where
  /-- `InvalidInputLength { expected, actual }`. -/
  | invalidInputLength (expected actual : ℕ)
  /-- `ResampleError(..)` from the underlying engine. -/
  | resampleError
deriving DecidableEq, Repr

/-- Model of `FixedBlockResampler`.  The rubato `FftFixedInOut` engine is an
external dependency; it is modelled abstractly by an engine-state type `σ`
together with the two operations the source calls on it:
`input_frames_next()` and `process_into_buffer` (the latter returning the
new engine state and either the written output samples or `none` for a
resample failure). -/
structure FixedBlockResampler (σ : Type) where
  input_buffer : List ℚ
  output_buffer : List ℚ
  engineState : σ
  inputFramesNext : σ → ℕ
  engineProcess : σ → List ℚ → σ × Option (List ℚ)

/-- Model of `FixedBlockResampler::process_callback(input, callback)`.
Returns the `Result` value, the resampler state after the call, and the
list of slices the callback was invoked with (in order). -/
def process_callback {σ : Type} (r : FixedBlockResampler σ)
    (input : List ℚ) :
    Except ResamplerError ℕ × FixedBlockResampler σ × List (List ℚ) :=
  let expected_len := r.inputFramesNext r.engineState
  if input.length ≠ expected_len then
    (.error (.invalidInputLength expected_len input.length), r, [])
  else
    -- resize (if needed) followed by copy_from_slice: the input buffer now
    -- holds exactly the input block
    let input_buffer := input
    match r.engineProcess r.engineState input_buffer with
    | (s, none) =>
      (.error .resampleError,
        { r with input_buffer := input_buffer, engineState := s }, [])
    | (s, some out) =>
      let output_written := out.length
      -- the engine overwrites the first `output_written` output slots
      let output_buffer := out ++ r.output_buffer.drop output_written
      -- don't call callback if nothing was written
      let emitted := if 0 < output_written then [out] else []
      (.ok output_written,
        { r with input_buffer := input_buffer,
                 output_buffer := output_buffer, engineState := s }, emitted)

/-- C9: every `process_callback` call on a fixed-block resampler whose input
length differs from the engine's required block size fails with
`InvalidInputLength` carrying the required and provided lengths; the
callback is never invoked and the state does not advance. -/
theorem process_callback_rejects_wrong_length {σ : Type}
    (r : FixedBlockResampler σ) (input : List ℚ)
    (h : input.length ≠ r.inputFramesNext r.engineState) :
    process_callback r input =
      (.error (.invalidInputLength (r.inputFramesNext r.engineState)
        input.length), r, []) := by
  unfold process_callback
  rw [if_pos h]

/-- C9 witness: a fixed-block resampler requiring 1024 frames rejects a
1023-sample call with `InvalidInputLength { expected := 1024, actual :=
1023 }`, unchanged state, and no callback invocation. -/
theorem process_callback_rejects_wrong_length_witness :
    process_callback
      (⟨[], [], (), fun _ => 1024, fun s _ => (s, none)⟩ :
        FixedBlockResampler Unit)
      (List.replicate 1023 0) =
      (.error (.invalidInputLength 1024 1023),
        (⟨[], [], (), fun _ => 1024, fun s _ => (s, none)⟩ :
          FixedBlockResampler Unit), []) := by
  have h := process_callback_rejects_wrong_length
    (⟨[], [], (), fun _ => 1024, fun s _ => (s, none)⟩ :
      FixedBlockResampler Unit)
    (List.replicate 1023 0) (by rw [List.length_replicate]; norm_num)
  rw [List.length_replicate] at h
  exact h

end Subwin

namespace Subwin

/-! ## Whisper decoder adapter (crates/subwin-speech/src/whisper.rs, lib.rs) -/

/-- Model of `CONTEXT_LENGTH_MILLISECONDS`: the rolling context window
length, 3000 ms. -/
def CONTEXT_LENGTH_MILLISECONDS : ℕ := 3000

/-- Model of `REPEAT_RUN_MILLISECONDS`: the decode scheduling interval,
500 ms. -/
def REPEAT_RUN_MILLISECONDS : ℕ := 500

/-- Model of `milliseconds_to_samples(milliseconds, sample_rate)`:
`(sample_rate * milliseconds) / 1000` in integer arithmetic. -/
def milliseconds_to_samples (milliseconds sample_rate : ℕ) : ℕ :=
  sample_rate * milliseconds / 1000

/-- Model of `WhisperTranscriber::min_transcription_samples(sample_rate)`:
`sample_rate / 10`, the 100 ms floor. -/
def min_transcription_samples (sample_rate : ℕ) : ℕ :=
  sample_rate / 10

/-- Model of `calculate_samples_rms` squared, over exact arithmetic: the
mean of the squares (`0` for an empty slice).  The source computes
`rms = sqrt(sum_of_squares / length)` in `f64`; carrying the square avoids
the irrational square root while determining `rms` exactly, and the silence
gate below is stated through the bridge lemma `silence_gate_bridge`. -/
def calculate_samples_rms_sq (samples_data : List ℚ) : ℚ :=
  if samples_data.isEmpty then 0
  else (samples_data.map (fun value => value * value)).sum /
    samples_data.length

/-- Model of the mutable fields of `WhisperTranscriber` (the opaque
`WhisperState` is factored out into the inference oracle passed to
`try_transcribe`; the `scratch_buffer` is materialized on demand by
`transcode_slice`). -/
structure WhisperTranscriber where
  since_last_decode : ℕ
  segment_window : List ℚ
  length_samples : ℕ
  repeat_run_samples : ℕ
  min_transcode_samples : ℕ
  target_rate : ℕ
  total_samples_seen : ℤ
deriving DecidableEq, Repr

/-- Model of `WhisperTranscriber::new(target_rate, ..)` (the model-loading
parts are external; the numeric fields are initialized as in the source). -/
def WhisperTranscriber.new (target_rate : ℕ) : WhisperTranscriber where
  since_last_decode := 0
  segment_window := []
  length_samples := milliseconds_to_samples CONTEXT_LENGTH_MILLISECONDS target_rate
  repeat_run_samples := milliseconds_to_samples REPEAT_RUN_MILLISECONDS target_rate
  min_transcode_samples := min_transcription_samples target_rate
  target_rate := target_rate
  total_samples_seen := 0

/-- Model of `accept_samples(samples)`: extend the rolling window, bump
`since_last_decode`, trim the oldest samples down to `length_samples`, and
bump `total_samples_seen`. -/
def accept_samples (st : WhisperTranscriber) (samples : List ℚ) :
    WhisperTranscriber :=
  let window := st.segment_window ++ samples
  let window :=
    if st.length_samples < window.length then
      window.drop (window.length - st.length_samples)
    else window
  { st with
    segment_window := window
    since_last_decode := st.since_last_decode + samples.length
    total_samples_seen := st.total_samples_seen + samples.length }

/-- The contiguous slice `try_transcribe` materializes: the window itself
when it holds at least `min_transcode_samples` samples, otherwise the window
copied into the scratch buffer and zero-padded to `min_transcode_samples`. -/
def transcode_slice (st : WhisperTranscriber) : List ℚ :=
  if st.min_transcode_samples ≤ st.segment_window.length then
    st.segment_window
  else
    st.segment_window ++
      List.replicate (st.min_transcode_samples - st.segment_window.length) 0

/-- Raw engine segment: relative `(start, end)` timestamps in centiseconds
plus the segment text. -/
abbrev RawSegment := ℤ × ℤ × Text

/-- Model of `try_transcribe(params)`.  The opaque whisper engine is the
oracle `infer` (`none` models an inference failure), and `elapsed` stands
for the wall-clock decode time returned on the success path.  Returns the
`(segments, decode_ms)` pair together with the transcriber state after the
call.  The `i64` divisions truncate toward zero (`Int.div`), as in Rust. -/
def try_transcribe (infer : List ℚ → Option (List RawSegment))
    (elapsed : ℕ) (st : WhisperTranscriber) :
    (List CaptionSegment × ℕ) × WhisperTranscriber :=
  -- fail fast, if there's not enough data to process yet
  if st.since_last_decode < st.repeat_run_samples then (([], 0), st)
  else
    let transcode_audio := transcode_slice st
    let rms_sq := calculate_samples_rms_sq transcode_audio
    -- source: `rms == 0.0 || (20.0 * rms.log10()) <= -60.0` with
    -- `rms = sqrt(rms_sq)`; over the nonnegative reals this is equivalent
    -- to the exact test below (lemma `silence_gate_bridge`)
    if rms_sq = 0 ∨ rms_sq ≤ 1 / 1000000 then
      (([], 0), { st with since_last_decode := 0 })
    else
      let sample_rate : ℤ := st.target_rate
      let window_samples : ℤ := transcode_audio.length
      let window_start_ms :=
        ((st.total_samples_seen - window_samples) * 1000).tdiv sample_rate
      match infer transcode_audio with
      | none => (([], 0), st)
      | some raw =>
        let segments := raw.filterMap fun r =>
          if (textTrim r.2.2).isEmpty then none
          else some ⟨window_start_ms + r.1 * 10,
            window_start_ms + r.2.1 * 10, r.2.2⟩
        ((segments, elapsed), { st with since_last_decode := 0 })

/-- An operation of the transcriber's interface, for reasoning about
arbitrary interleavings of `accept_samples` and `try_transcribe` calls. -/
inductive TranscriberOp where
  | accept (samples : List ℚ)
  | transcribe (infer : List ℚ → Option (List RawSegment)) (elapsed : ℕ)

/-- Executes a sequence of operations starting from the freshly constructed
transcriber. -/
def execOps (target_rate : ℕ) (ops : List TranscriberOp) :
    WhisperTranscriber :=
  ops.foldl
    (fun st op =>
      match op with
      | .accept samples => accept_samples st samples
      | .transcribe infer elapsed => (try_transcribe infer elapsed st).2)
    (WhisperTranscriber.new target_rate)

/-- All samples accepted by a sequence of operations, in arrival order. -/
def acceptedSamples (ops : List TranscriberOp) : List ℚ :=
  ops.foldl
    (fun acc op =>
      match op with
      | .accept samples => acc ++ samples
      | .transcribe _ _ => acc)
    []

end Subwin

namespace Subwin

/-! ## Whisper adapter lemmas and theorems -/

lemma rms_sq_nonneg (l : List ℚ) : 0 ≤ calculate_samples_rms_sq l := by
  unfold calculate_samples_rms_sq
  split_ifs
  · exact le_refl 0
  · apply div_nonneg
    · apply List.sum_nonneg
      intro x hx
      simp only [List.mem_map] at hx
      obtain ⟨v, _, rfl⟩ := hx
      exact mul_self_nonneg v
    · exact_mod_cast Nat.zero_le _

/-- Bridge between the source's floating-point silence test on
`rms = sqrt(q)` and the exact test on the mean square `q`: over the
nonnegative reals, `rms = 0 ∨ 20·log10(rms) ≤ -60` holds exactly when
`q = 0 ∨ q ≤ 10⁻⁶`. -/
lemma silence_gate_bridge (q : ℚ) (hq : 0 ≤ q)
    (h : Real.sqrt (q : ℝ) = 0 ∨
      20 * Real.logb 10 (Real.sqrt (q : ℝ)) ≤ -60) :
    q = 0 ∨ q ≤ 1 / 1000000 := by
  rcases h with h | h
  · left
    have h2 : (q : ℝ) ≤ 0 := Real.sqrt_eq_zero'.mp h
    have h3 : q ≤ 0 := by exact_mod_cast h2
    exact le_antisymm h3 hq
  · by_cases h0 : q = 0
    · exact Or.inl h0
    · right
      have hqpos : (0 : ℝ) < (q : ℝ) := by
        exact_mod_cast lt_of_le_of_ne hq (Ne.symm h0)
      have hsq : Real.logb 10 (Real.sqrt (q : ℝ)) =
          Real.logb 10 (q : ℝ) / 2 := by
        unfold Real.logb
        rw [Real.log_sqrt (le_of_lt hqpos)]
        ring
      have h2 : Real.logb 10 (q : ℝ) ≤ -6 := by
        rw [hsq] at h
        linarith
      have h3 : (q : ℝ) ≤ (10 : ℝ) ^ (-6 : ℝ) :=
        (Real.logb_le_iff_le_rpow (by norm_num) hqpos).mp h2
      have h4 : (10 : ℝ) ^ (-6 : ℝ) = ((1 / 1000000 : ℚ) : ℝ) := by
        rw [show (-6 : ℝ) = ((-6 : ℤ) : ℝ) by norm_num, Real.rpow_intCast]
        push_cast
        norm_num
      rw [h4] at h3
      exact_mod_cast h3

/-- C6: whenever a decode attempt passes the fast-exit check
(`since_last_decode ≥ repeat_run_samples`) and the materialized slice is
silent — its RMS is `0`, or more generally `20·log10(rms) ≤ -60` —
`try_transcribe` returns `([], 0)` and resets `since_last_decode` to `0`,
for every inference oracle and every elapsed time (so inference is never
invoked: the result does not depend on the engine). -/
theorem try_transcribe_silence_gate (st : WhisperTranscriber)
    (infer : List ℚ → Option (List RawSegment)) (elapsed : ℕ)
    (hfast : st.repeat_run_samples ≤ st.since_last_decode)
    (hsil : Real.sqrt ((calculate_samples_rms_sq (transcode_slice st) :
        ℚ) : ℝ) = 0 ∨
      20 * Real.logb 10 (Real.sqrt ((calculate_samples_rms_sq
        (transcode_slice st) : ℚ) : ℝ)) ≤ -60) :
    try_transcribe infer elapsed st =
      (([], 0), { st with since_last_decode := 0 }) := by
  have hq := silence_gate_bridge _ (rms_sq_nonneg (transcode_slice st)) hsil
  dsimp only [try_transcribe]
  rw [if_neg (by omega), if_pos hq]

/-- C6 witness: a transcriber state holding five zero samples, with the
fast-exit threshold met, returns `([], 0)` and a reset
`since_last_decode`. -/
theorem try_transcribe_silence_gate_witness :
    try_transcribe (fun _ => none) 0 ⟨5, [0, 0, 0, 0, 0], 30, 5, 4, 10, 5⟩ =
      (([], 0), ⟨0, [0, 0, 0, 0, 0], 30, 5, 4, 10, 5⟩) := by
  have hq : calculate_samples_rms_sq
      (transcode_slice ⟨5, [0, 0, 0, 0, 0], 30, 5, 4, 10, 5⟩) = 0 := by
    norm_num [transcode_slice, calculate_samples_rms_sq]
  exact try_transcribe_silence_gate _ (fun _ => none) 0 (by norm_num)
    (Or.inl (by rw [hq]; simp))

lemma try_transcribe_snd (infer : List ℚ → Option (List RawSegment))
    (elapsed : ℕ) (st : WhisperTranscriber) :
    (try_transcribe infer elapsed st).2 = st ∨
    (try_transcribe infer elapsed st).2 =
      { st with since_last_decode := 0 } := by
  dsimp only [try_transcribe]
  split_ifs
  · exact Or.inl rfl
  · exact Or.inr rfl
  · cases h : infer (transcode_slice st) with
    | none => exact Or.inl rfl
    | some raw => exact Or.inr rfl

lemma window_extend_drop (A B : List ℚ) (L : ℕ) :
    (if L < (A.drop (A.length - L) ++ B).length then
      (A.drop (A.length - L) ++ B).drop
        ((A.drop (A.length - L) ++ B).length - L)
     else A.drop (A.length - L) ++ B) =
    (A ++ B).drop ((A ++ B).length - L) := by
  have hlenW : (A.drop (A.length - L)).length = A.length - (A.length - L) :=
    List.length_drop _ _
  by_cases hc : L < (A.drop (A.length - L) ++ B).length
  · rw [if_pos hc]
    have hD : A.drop (A.length - L) ++ B = (A ++ B).drop (A.length - L) :=
      (List.drop_append_of_le_length (by omega)).symm
    rw [hD, List.drop_drop]
    congr 1
    rw [List.length_drop, List.length_append]
    rw [List.length_append, hlenW] at hc
    omega
  · rw [if_neg hc]
    push_neg at hc
    rw [List.length_append, hlenW] at hc
    rcases le_or_lt A.length L with hA | hA
    · have h0 : A.length - L = 0 := by omega
      have h1 : (A ++ B).length - L = 0 := by
        rw [List.length_append]; omega
      rw [h0, h1, List.drop_zero, List.drop_zero]
    · have hB : B = [] := List.eq_nil_of_length_eq_zero (by omega)
      subst hB
      rw [List.append_nil, List.append_nil]

lemma execOps_invariant (rate : ℕ) (ops : List TranscriberOp) :
    (execOps rate ops).length_samples =
      milliseconds_to_samples CONTEXT_LENGTH_MILLISECONDS rate ∧
    (execOps rate ops).repeat_run_samples =
      milliseconds_to_samples REPEAT_RUN_MILLISECONDS rate ∧
    (execOps rate ops).min_transcode_samples =
      min_transcription_samples rate ∧
    (execOps rate ops).target_rate = rate ∧
    (execOps rate ops).segment_window =
      (acceptedSamples ops).drop ((acceptedSamples ops).length -
        milliseconds_to_samples CONTEXT_LENGTH_MILLISECONDS rate) ∧
    (execOps rate ops).since_last_decode ≤ (acceptedSamples ops).length ∧
    (execOps rate ops).total_samples_seen =
      ((acceptedSamples ops).length : ℤ) := by
  induction ops using List.reverseRecOn with
  | nil =>
    refine ⟨rfl, rfl, rfl, rfl, ?_, ?_, ?_⟩ <;>
      simp [execOps, acceptedSamples, WhisperTranscriber.new]
  | append_singleton ops op ih =>
    obtain ⟨ih1, ih2, ih3, ih4, ih5, ih6, ih7⟩ := ih
    cases op with
    | accept samples =>
      have hexec : execOps rate (ops ++ [TranscriberOp.accept samples]) =
          accept_samples (execOps rate ops) samples := by
        unfold execOps
        rw [List.foldl_append]
        rfl
      have hacc : acceptedSamples (ops ++ [TranscriberOp.accept samples]) =
          acceptedSamples ops ++ samples := by
        unfold acceptedSamples
        rw [List.foldl_append]
        rfl
      rw [hexec, hacc]
      dsimp only [accept_samples]
      refine ⟨ih1, ih2, ih3, ih4, ?_, ?_, ?_⟩
      · rw [ih1, ih5]
        exact window_extend_drop (acceptedSamples ops) samples _
      · rw [List.length_append]
        omega
      · rw [ih7, List.length_append]
        push_cast
        ring
    | transcribe infer elapsed =>
      have hexec : execOps rate
          (ops ++ [TranscriberOp.transcribe infer elapsed]) =
          (try_transcribe infer elapsed (execOps rate ops)).2 := by
        unfold execOps
        rw [List.foldl_append]
        rfl
      have hacc : acceptedSamples
          (ops ++ [TranscriberOp.transcribe infer elapsed]) =
          acceptedSamples ops := by
        unfold acceptedSamples
        rw [List.foldl_append]
        rfl
      rw [hexec, hacc]
      rcases try_transcribe_snd infer elapsed (execOps rate ops) with h | h <;>
        rw [h]
      · exact ⟨ih1, ih2, ih3, ih4, ih5, ih6, ih7⟩
      · exact ⟨ih1, ih2, ih3, ih4, ih5, Nat.zero_le _, ih7⟩

/-- C7: after every sequence of `accept_samples` and `try_transcribe` calls
starting from the freshly constructed transcriber, the rolling window is
exactly the suffix of the accepted sample stream of length
`min(total accepted, L_window)` with `L_window = context_ms · rate / 1000`
(`context_ms = 3000`); in particular its length never exceeds `L_window`,
the oldest samples having been dropped once the bound was reached. -/
theorem rolling_window_bound (rate : ℕ) (ops : List TranscriberOp) :
    (execOps rate ops).segment_window =
      (acceptedSamples ops).drop ((acceptedSamples ops).length -
        milliseconds_to_samples CONTEXT_LENGTH_MILLISECONDS rate) ∧
    (execOps rate ops).segment_window.length =
      min (acceptedSamples ops).length
        (milliseconds_to_samples CONTEXT_LENGTH_MILLISECONDS rate) ∧
    (execOps rate ops).segment_window.length ≤
      milliseconds_to_samples CONTEXT_LENGTH_MILLISECONDS rate := by
  obtain ⟨-, -, -, -, h5, -, -⟩ := execOps_invariant rate ops
  refine ⟨h5, ?_, ?_⟩ <;> rw [h5, List.length_drop] <;> omega

lemma repeat_ge_min_transcode (rate : ℕ) :
    min_transcription_samples rate ≤
      milliseconds_to_samples REPEAT_RUN_MILLISECONDS rate := by
  unfold min_transcription_samples milliseconds_to_samples
    REPEAT_RUN_MILLISECONDS
  have h : rate * 500 / 1000 = rate / 2 := by
    rw [show rate * 500 = 500 * rate from mul_comm _ _,
      show (1000 : ℕ) = 500 * 2 from rfl,
      Nat.mul_div_mul_left _ _ (by norm_num)]
  rw [h]
  exact Nat.div_le_div_left (by norm_num) (by norm_num)

lemma context_ge_min_transcode (rate : ℕ) :
    min_transcription_samples rate ≤
      milliseconds_to_samples CONTEXT_LENGTH_MILLISECONDS rate := by
  unfold min_transcription_samples milliseconds_to_samples
    CONTEXT_LENGTH_MILLISECONDS
  have h : rate * 3000 / 1000 = 3 * rate := by
    rw [show rate * 3000 = 1000 * (3 * rate) by ring,
      Nat.mul_div_cancel_left _ (by norm_num)]
  rw [h]
  exact le_trans (Nat.div_le_self _ _) (by omega)

/-- C10: with the shipped constants (`repeat = 500 ms`, minimum decode
length `100 ms`, context `3000 ms`), in every state reachable from the
freshly constructed transcriber by interleaving `accept_samples` and
`try_transcribe`, passing the fast-exit check implies the rolling window
already holds at least `min_transcode_samples` samples — so the materialized
slice is the window itself and the zero-padding scratch-buffer branch is
unreachable. -/
theorem padding_branch_unreachable (rate : ℕ) (ops : List TranscriberOp)
    (hfast : (execOps rate ops).repeat_run_samples ≤
      (execOps rate ops).since_last_decode) :
    (execOps rate ops).min_transcode_samples ≤
      (execOps rate ops).segment_window.length ∧
    transcode_slice (execOps rate ops) =
      (execOps rate ops).segment_window := by
  obtain ⟨h1, h2, h3, -, h5, h6, -⟩ := execOps_invariant rate ops
  have hge : (execOps rate ops).min_transcode_samples ≤
      (execOps rate ops).segment_window.length := by
    rw [h5, List.length_drop, h3]
    have ha : min_transcription_samples rate ≤
        (acceptedSamples ops).length :=
      le_trans (repeat_ge_min_transcode rate) (by omega)
    have hb := context_ge_min_transcode rate
    omega
  exact ⟨hge, by unfold transcode_slice; rw [if_pos hge]⟩

/-- C10 witness: at rate 10, a single accept of five samples reaches the
fast-exit threshold (`repeat_run_samples = 5`) with a five-sample window,
well above the decode floor (`min_transcode_samples = 1`). -/
theorem padding_branch_unreachable_witness :
    (execOps 10 [TranscriberOp.accept
        (List.replicate 5 0)]).min_transcode_samples ≤
      (execOps 10 [TranscriberOp.accept
        (List.replicate 5 0)]).segment_window.length ∧
    transcode_slice (execOps 10 [TranscriberOp.accept
        (List.replicate 5 0)]) =
      (execOps 10 [TranscriberOp.accept
        (List.replicate 5 0)]).segment_window :=
  padding_branch_unreachable 10 [TranscriberOp.accept (List.replicate 5 0)]
    (by decide)

end Subwin
